import Mathlib

/-!
Verification of the literate-transcript generator.

The program reads one source file, parses it with an external analyzer
(esprima) into a list of comment spans and a list of token spans, sorts the
concatenated span list by source position, and folds over it producing a
single output string that alternates raw block-comment bodies (prose) with
fenced code slices taken verbatim from the source text.

The definitions below are a shallow embedding of that program.  Strings are
modelled as `List Char`, character offsets as `Nat`, and the possibly-unset
`previousEnd` variable as `Option Nat`.
-/

/-- A parsed span: either a comment or a lexical token.  Fields mirror the
fields the program reads from each esprima object: `type`, `value`,
`loc.start.line`, `loc.start.column`, `range[0]` and `range[1]`. -/
structure Span where
  type : String
  value : String
  startLine : Nat
  startColumn : Nat
  rangeStart : Nat
  rangeEnd : Nat
deriving DecidableEq

/-- Lines 71-73: `function isComment(token) { return token.type === "Block" }`. -/
def isComment (token : Span) : Bool :=
  token.type == "Block"

/-- Lines 23-32: the sort comparator.  It returns -1 when `a` is strictly
before `b` by line, 1 when strictly after, -1 when on the same line strictly
before by column, and 1 otherwise (including exact position ties). -/
def comparator (a b : Span) : Int :=
  let aLine := a.startLine
  let bLine := b.startLine
  let aColumn := a.startColumn
  let bColumn := b.startColumn
  if aLine < bLine then -1
  else if aLine > bLine then 1
  else if aColumn < bColumn then -1
  else 1

/-- One insertion step of the sort model: `token` is placed before the first
already-placed element `y` for which `comparator y token` is positive. -/
def insertSorted (token : Span) : List Span → List Span
| [] => [token]
| y :: ys => if comparator y token ≤ 0 then y :: insertSorted token ys
             else token :: y :: ys

/-- Model of `Array.prototype.sort` with the comparator of lines 23-32: a
stable comparison sort (elements are taken left to right and each is placed
before the first earlier element that compares greater than it).  ECMAScript
leaves the concrete algorithm implementation-defined; any stable comparison
sort has this behavior. -/
def jsSort (l : List Span) : List Span :=
  l.foldl (fun acc token => insertSorted token acc) []

/-- Line 22: `output.comments.concat(output.tokens).sort(comparator)`. -/
def allTokensOf (comments tokens : List Span) : List Span :=
  jsSort (comments ++ tokens)

/-- `String.prototype.substring(start, stop)` on a `List Char` source, with
`start` possibly the still-unset `previousEnd` (JS `undefined`, which
`substring` coerces to 0).  Both positions are clamped to the string length
and swapped when out of order, exactly as the ECMAScript operation does. -/
def jsSubstring (s : List Char) (start : Option Nat) (stop : Nat) : List Char :=
  let len := s.length
  let finalStart := min (start.getD 0) len
  let finalEnd := min stop len
  let lo := min finalStart finalEnd
  let hi := max finalStart finalEnd
  (s.drop lo).take (hi - lo)

/-- The builder's mutable state, lines 34-36: the accumulated output `str`,
the `inComment` flag (initially `true`), and `previousEnd` (initially
`undefined`, modelled as `none`). -/
structure BuilderState where
  str : List Char
  inComment : Bool
  previousEnd : Option Nat
deriving DecidableEq

/-- Lines 38-62: the `allTokens.forEach` callback body.  On a transition out
of prose it appends the opening fence `"```js"`; on a transition into prose it
appends the closing fence `"\n```"`.  Then it appends either the verbatim
source slice `sourceCode.substring(previousEnd, end)` (non-comments) or the
comment's own `value` (block comments), and finally records `previousEnd`. -/
def step (sourceCode : List Char) (st : BuilderState) (token : Span) : BuilderState :=
  let st1 :=
    if isComment token && (st.inComment == false) then
      { st with inComment := true, str := st.str ++ ("\n```".data) }
    else if !isComment token && (st.inComment == true) then
      { st with inComment := false, str := st.str ++ ("```js".data) }
    else st
  let e := token.rangeEnd
  let st2 :=
    if !isComment token then
      { st1 with str := st1.str ++ jsSubstring sourceCode st1.previousEnd e }
    else
      { st1 with str := st1.str ++ token.value.data }
  { st2 with previousEnd := some e }

/-- Lines 34-62: fold the callback over the sorted span list from the initial
state `str = ""`, `inComment = true`, `previousEnd = undefined`. -/
def runBuilder (sourceCode : List Char) (allTokens : List Span) : BuilderState :=
  allTokens.foldl (step sourceCode) { str := [], inComment := true, previousEnd := none }

/-- Lines 64-68: append the final closing fence when the loop ended outside
prose, then write `str + "\n"`.  The returned list is exactly the text the
program writes to standard output. -/
def outputFromSpans (sourceCode : List Char) (allTokens : List Span) : List Char :=
  let final := runBuilder sourceCode allTokens
  let str := if final.inComment == false then final.str ++ ("\n```".data) else final.str
  str ++ ("\n".data)

/-- The whole transform of lines 12-68 applied to a parsed file: sort the
merged comment/token list, run the builder, close the last fence, append the
trailing newline. -/
def buildOutput (sourceCode : List Char) (comments tokens : List Span) : List Char :=
  outputFromSpans sourceCode (allTokensOf comments tokens)

/-- Lines 7-69: the `fs.readFile` callback.  `readResult` is the outcome of
the file read; `parse` stands for the external analyzer producing the comment
and token lists.  The result is either the uncaught re-thrown error (line 9,
`throw err`) or the text written to standard output (line 68). -/
def mainOnRead {ε : Type} (readResult : Except ε (List Char))
    (parse : List Char → List Span × List Span) : Except ε (List Char) :=
  match readResult with
  | Except.error err => Except.error err
  | Except.ok body => Except.ok (buildOutput body (parse body).1 (parse body).2)

/-- One output segment of the builder, used to reason about the structure of
the emitted string: an opening fence, a closing fence, a verbatim code slice,
or a prose (block-comment body) emission.  A prose segment also records the
`previousEnd` value and range end at the moment of emission, i.e. the source
interval `[previousEnd, end)` that the comment emission masks. -/
inductive Seg where
| openF : Seg
| closeF : Seg
| code : List Char → Seg
| prose : List Char → Option Nat → Nat → Seg
deriving DecidableEq

/-- The state transition of one `forEach` iteration (lines 40-49 and 61),
without the string accumulation. -/
def stepState (st : Bool × Option Nat) (token : Span) : Bool × Option Nat :=
  let inC :=
    if isComment token && (st.1 == false) then true
    else if !isComment token && (st.1 == true) then false
    else st.1
  (inC, some token.rangeEnd)

/-- The segments one `forEach` iteration appends (lines 40-59), together with
the successor state: at most one fence followed by exactly one content
segment. -/
def emitSpan (sourceCode : List Char) (st : Bool × Option Nat) (token : Span) :
    (Bool × Option Nat) × List Seg :=
  let fences :=
    if isComment token && (st.1 == false) then [Seg.closeF]
    else if !isComment token && (st.1 == true) then [Seg.openF]
    else []
  let content :=
    if !isComment token then Seg.code (jsSubstring sourceCode st.2 token.rangeEnd)
    else Seg.prose token.value.data st.2 token.rangeEnd
  (stepState st token, fences ++ [content])

/-- The segment stream of the whole loop from a given state. -/
def goSegs (sourceCode : List Char) (st : Bool × Option Nat) : List Span → List Seg
| [] => []
| token :: rest =>
    (emitSpan sourceCode st token).2 ++ goSegs sourceCode (stepState st token) rest

/-- All segments the program emits: the loop's segments from the initial
state, plus the final closing fence of lines 64-66 when the loop ends with
`inComment === false`. -/
def emitAll (sourceCode : List Char) (allTokens : List Span) : List Seg :=
  goSegs sourceCode (true, none) allTokens ++
    (if (allTokens.foldl stepState (true, none)).1 == false then [Seg.closeF] else [])

/-- The text of one segment as the program appends it to `str`. -/
def render : Seg → List Char
| Seg.openF => "```js".data
| Seg.closeF => "\n```".data
| Seg.code cs => cs
| Seg.prose cs _ _ => cs

/-- Fence segments. -/
def isFence : Seg → Bool
| Seg.openF => true
| Seg.closeF => true
| _ => false

/-- The non-fence text of a segment: code slices and comment bodies, fence
markers excluded. -/
def contentRender : Seg → List Char
| Seg.openF => []
| Seg.closeF => []
| Seg.code cs => cs
| Seg.prose cs _ _ => cs

/-- The non-fence text of a segment with each block-comment emission replaced
by the verbatim source interval `[previousEnd, end)` it masked. -/
def restoredRender (s : List Char) : Seg → List Char
| Seg.openF => []
| Seg.closeF => []
| Seg.code cs => cs
| Seg.prose _ p e => jsSubstring s p e

/-- Instrumentation of lines 55-61: `true` exactly when some iteration
executes `sourceCode.substring(previousEnd, end)` (the non-comment branch)
while `previousEnd` is still unset. -/
def readsPreviousEndUnset (previousEnd : Option Nat) : List Span → Bool
| [] => false
| token :: rest =>
    (!isComment token && (previousEnd == none)) ||
      readsPreviousEndUnset (some token.rangeEnd) rest

/-- The range end of the last span of a list, or the default `d` when the
list is empty. -/
def lastEndFrom (d : Nat) : List Span → Nat
| [] => d
| token :: rest => lastEndFrom token.rangeEnd rest

/-- A sample block-comment span used in sanity checks below. -/
def sampleBlock : Span :=
  { type := "Block", value := "", startLine := 1, startColumn := 0,
    rangeStart := 0, rangeEnd := 2 }

example : isComment sampleBlock = true := by decide

example : jsSubstring "hello".data (some 1) 3 = "el".data := by decide

example : jsSubstring "hello".data none 2 = "he".data := by decide

lemma jsSubstring_none (s : List Char) (e : Nat) :
    jsSubstring s none e = jsSubstring s (some 0) e := rfl

lemma jsSubstring_getD_self (s : List Char) (p : Option Nat) :
    jsSubstring s p (p.getD 0) = [] := by
  cases p <;> simp [jsSubstring]

lemma jsSubstring_zero (s : List Char) (e : Nat) :
    jsSubstring s (some 0) e = s.take e := by
  simp only [jsSubstring, Option.getD_some, Nat.zero_min, Nat.zero_max, Nat.sub_zero,
    List.drop_zero]
  rcases Nat.le_total e s.length with h | h
  · rw [Nat.min_eq_left h]
  · rw [Nat.min_eq_right h, List.take_of_length_le h, List.take_of_length_le (Nat.le_refl _)]

lemma jsSubstring_append (s : List Char) (a b c : Nat) (h1 : a ≤ b) (h2 : b ≤ c) :
    jsSubstring s (some a) b ++ jsSubstring s (some b) c = jsSubstring s (some a) c := by
  simp only [jsSubstring, Option.getD_some]
  have hab : min a s.length ≤ min b s.length := min_le_min h1 (Nat.le_refl _)
  have hbc : min b s.length ≤ min c s.length := min_le_min h2 (Nat.le_refl _)
  have hac : min a s.length ≤ min c s.length := Nat.le_trans hab hbc
  rw [Nat.min_eq_left hab, Nat.max_eq_right hab, Nat.min_eq_left hbc, Nat.max_eq_right hbc,
    Nat.min_eq_left hac, Nat.max_eq_right hac]
  have h3 : min c s.length - min a s.length =
      (min b s.length - min a s.length) + (min c s.length - min b s.length) := by omega
  rw [h3, List.take_add, List.drop_drop]
  have h4 : min a s.length + (min b s.length - min a s.length) = min b s.length := by omega
  rw [h4]

lemma jsSubstring_optionAppend (s : List Char) (p : Option Nat) (b c : Nat)
    (h1 : p.getD 0 ≤ b) (h2 : b ≤ c) :
    jsSubstring s p b ++ jsSubstring s (some b) c = jsSubstring s p c := by
  cases p with
  | none => rw [jsSubstring_none, jsSubstring_none s c]
            exact jsSubstring_append s 0 b c (Nat.zero_le _) h2
  | some a => exact jsSubstring_append s a b c h1 h2

lemma jsSubstring_take (s : List Char) (L : Nat) (p : Option Nat) (e : Nat)
    (h1 : p.getD 0 ≤ L) (h2 : e ≤ L) :
    jsSubstring (s.take L) p e = jsSubstring s p e := by
  simp only [jsSubstring, List.length_take]
  have ha : min (p.getD 0) (min L s.length) = min (p.getD 0) s.length := by
    rw [← Nat.min_assoc, Nat.min_eq_left h1]
  have he : min e (min L s.length) = min e s.length := by
    rw [← Nat.min_assoc, Nat.min_eq_left h2]
  rw [ha, he]
  have hhi : max (min (p.getD 0) s.length) (min e s.length) ≤ L := by
    have g1 : min (p.getD 0) s.length ≤ L := Nat.le_trans (Nat.min_le_left _ _) h1
    have g2 : min e s.length ≤ L := Nat.le_trans (Nat.min_le_left _ _) h2
    omega
  set lo := min (min (p.getD 0) s.length) (min e s.length) with hlo
  set hi := max (min (p.getD 0) s.length) (min e s.length) with hhi2
  have hlole : lo ≤ hi := Nat.le_trans (Nat.min_le_left _ _) (Nat.le_max_left _ _)
  rw [List.drop_take, List.take_take, Nat.min_eq_left (by omega)]

/-- If the range ends are `Chain'`-nondecreasing from `t` onward, then `t`'s
range end is at most the last range end. -/
lemma chain_le_lastEndFrom :
    ∀ (rest : List Span) (t : Span),
    List.Chain' (fun a b : Span => a.rangeEnd ≤ b.rangeEnd) (t :: rest) →
    t.rangeEnd ≤ lastEndFrom t.rangeEnd rest := by
  intro rest
  induction rest with
  | nil => intro t _; exact Nat.le_refl _
  | cons u rest' ih =>
      intro t h
      rcases List.chain'_cons.mp h with ⟨h1, h2⟩
      exact Nat.le_trans h1 (ih u h2)

/-- The non-fence content of the loop's segment stream, with each
block-comment emission replaced by the source interval it masks, telescopes
to the single source slice from `previousEnd` to the last range end. -/
lemma restored_goSegs (s : List Char) :
    ∀ (spans : List Span) (inC : Bool) (p : Option Nat),
    List.Chain' (fun a b : Span => a.rangeEnd ≤ b.rangeEnd) spans →
    (∀ t1 ∈ spans.head?, p.getD 0 ≤ t1.rangeEnd) →
    ((goSegs s (inC, p) spans).map (restoredRender s)).flatten =
      jsSubstring s p (lastEndFrom (p.getD 0) spans) := by
  intro spans
  induction spans with
  | nil =>
      intro inC p _ _
      simp [goSegs, lastEndFrom, jsSubstring_getD_self]
  | cons t rest ih =>
      intro inC p hchain hhead
      have hpt : p.getD 0 ≤ t.rangeEnd := hhead t (by simp)
      have hrest : List.Chain' (fun a b : Span => a.rangeEnd ≤ b.rangeEnd) rest :=
        hchain.tail
      have hhead' : ∀ t1 ∈ rest.head?, t.rangeEnd ≤ t1.rangeEnd := by
        intro t1 ht1
        cases rest with
        | nil => simp at ht1
        | cons u rest' =>
            simp only [List.head?_cons, Option.mem_def, Option.some.injEq] at ht1
            subst ht1
            exact (List.chain'_cons.mp hchain).1
      have hstep : stepState (inC, p) t = ((stepState (inC, p) t).1, some t.rangeEnd) := by
        simp [stepState]
      have ihr := ih (stepState (inC, p) t).1 (some t.rangeEnd) hrest
        (by simpa using hhead')
      simp only [goSegs, List.map_append, List.flatten_append]
      rw [hstep, ihr]
      have hcontent :
          (((emitSpan s (inC, p) t).2).map (restoredRender s)).flatten =
            jsSubstring s p t.rangeEnd := by
        by_cases hc : isComment t
        · by_cases hic : inC
          · simp [emitSpan, hc, hic, restoredRender]
          · simp [emitSpan, hc, hic, restoredRender]
        · by_cases hic : inC
          · simp [emitSpan, hc, hic, restoredRender]
          · simp [emitSpan, hc, hic, restoredRender]
      rw [hcontent]
      simp only [Option.getD_some, lastEndFrom]
      exact jsSubstring_optionAppend s p t.rangeEnd (lastEndFrom t.rangeEnd rest) hpt
        (chain_le_lastEndFrom rest t hchain)

/-- Concrete spans for the source `"a /* b */ c"`: identifier `a`, block
comment `/* b */` (body `" b "`), identifier `c`, as the external parser
produces them. -/
def aTok : Span :=
  { type := "Identifier", value := "a", startLine := 1, startColumn := 0,
    rangeStart := 0, rangeEnd := 1 }

/-- The block comment `/* b */` of `"a /* b */ c"`. -/
def bComment : Span :=
  { type := "Block", value := " b ", startLine := 1, startColumn := 2,
    rangeStart := 2, rangeEnd := 9 }

/-- The identifier `c` of `"a /* b */ c"`. -/
def cTok : Span :=
  { type := "Identifier", value := "c", startLine := 1, startColumn := 10,
    rangeStart := 10, rangeEnd := 11 }

/-- C1, counterexample.  The claim states that concatenating the emitted
code-segment slices with the block-comment bodies restored reproduces the
original source text.  On source `"a /* b */ c"` the program emits the code
slices `"a"` and `" c"` and the comment body `" b "`, whose concatenation
`"a b  c"` differs from the source: the space between `a` and the comment
and the comment delimiters are lost. -/
theorem c1_roundtrip_counterexample :
    ¬ (((emitAll "a /* b */ c".data (allTokensOf [bComment] [aTok, cTok])).map
          contentRender).flatten = "a /* b */ c".data) := by
  decide

/-- C1, amended.  For spans whose range ends are nondecreasing, concatenating
the emitted code slices with each block-comment emission replaced by the full
source interval `[previousEnd, commentEnd)` it masks (the comment's span plus
any gap since the previous span) yields the source text truncated at the last
span's range end; every character before the last range end and outside those
masked intervals appears exactly once, in order, in a code slice. -/
theorem c1_roundtrip_amended (s : List Char) (spans : List Span)
    (h : List.Chain' (fun a b : Span => a.rangeEnd ≤ b.rangeEnd) spans) :
    ((emitAll s spans).map (restoredRender s)).flatten = s.take (lastEndFrom 0 spans) := by
  unfold emitAll
  rw [List.map_append, List.flatten_append]
  have h2 := restored_goSegs s spans true none h (fun t1 _ => Nat.zero_le _)
  rw [h2]
  have h3 : ((if (spans.foldl stepState (true, none)).1 == false then [Seg.closeF]
      else []).map (restoredRender s)).flatten = ([] : List Char) := by
    by_cases hf : (spans.foldl stepState (true, none)).1 = false
    · simp [hf, restoredRender]
    · simp [hf]
  rw [h3, List.append_nil, jsSubstring_none, jsSubstring_zero]
  simp only [Option.getD_none]

/-- Witness for the amended C1 on the source `"a /* b */ c"`. -/
theorem c1_roundtrip_amended_witness :
    List.Chain' (fun a b : Span => a.rangeEnd ≤ b.rangeEnd)
      (allTokensOf [bComment] [aTok, cTok]) ∧
    ((emitAll "a /* b */ c".data (allTokensOf [bComment] [aTok, cTok])).map
        (restoredRender "a /* b */ c".data)).flatten =
      "a /* b */ c".data.take (lastEndFrom 0 (allTokensOf [bComment] [aTok, cTok])) := by
  have hs : allTokensOf [bComment] [aTok, cTok] = [aTok, bComment, cTok] := by decide
  have hchain : List.Chain' (fun a b : Span => a.rangeEnd ≤ b.rangeEnd)
      (allTokensOf [bComment] [aTok, cTok]) := by
    rw [hs]
    refine List.chain'_cons.mpr ⟨by decide, List.chain'_cons.mpr ⟨by decide, ?_⟩⟩
    simp
  exact ⟨hchain, c1_roundtrip_amended _ _ hchain⟩

/-- Fence-stream shape invariant: starting from any builder state, the fence
segments of the rest of the run (final closing fence of lines 64-66 included)
form a strictly alternating, balanced sequence — a leading closing fence
exactly when the state is already inside code, followed by some number of
open/close pairs. -/
lemma fence_goSegs (s : List Char) :
    ∀ (spans : List Span) (st : Bool × Option Nat),
    ∃ k, (goSegs s st spans ++
        (if (spans.foldl stepState st).1 == false then [Seg.closeF] else [])).filter isFence =
      (if st.1 then [] else [Seg.closeF]) ++
        (List.replicate k [Seg.openF, Seg.closeF]).flatten := by
  intro spans
  induction spans with
  | nil =>
      intro st
      refine ⟨0, ?_⟩
      cases hst : st.1 <;> simp [goSegs, hst, isFence]
  | cons t rest ih =>
      intro st
      obtain ⟨k, hk⟩ := ih (stepState st t)
      by_cases hc : isComment t
      · cases hst : st.1
        · refine ⟨k, ?_⟩
          simp only [goSegs, List.foldl_cons, List.append_assoc]
          rw [List.filter_append, hk]
          simp [emitSpan, stepState, hc, hst, isFence]
        · refine ⟨k, ?_⟩
          simp only [goSegs, List.foldl_cons, List.append_assoc]
          rw [List.filter_append, hk]
          simp [emitSpan, stepState, hc, hst, isFence]
      · cases hst : st.1
        · refine ⟨k, ?_⟩
          simp only [goSegs, List.foldl_cons, List.append_assoc]
          rw [List.filter_append, hk]
          simp [emitSpan, stepState, hc, hst, isFence]
        · refine ⟨k + 1, ?_⟩
          simp only [goSegs, List.foldl_cons, List.append_assoc]
          rw [List.filter_append, hk]
          simp [emitSpan, stepState, hc, hst, isFence, List.replicate_succ]

/-- C2.  For every source text and every span list, the fence segments of the
program's full emission (final close of lines 64-66 included) are exactly some
number of opening/closing pairs in strict alternation: the number of opening
fence markers equals the number of closing markers, fences never nest, no two
markers of the same kind are adjacent (each is emitted only at a prose/code
state transition), and a run that ends inside code is closed by the final
appended fence. -/
theorem c2_fence_balance (s : List Char) (spans : List Span) :
    ∃ k, (emitAll s spans).filter isFence =
      (List.replicate k [Seg.openF, Seg.closeF]).flatten := by
  obtain ⟨k, hk⟩ := fence_goSegs s spans (true, none)
  refine ⟨k, ?_⟩
  simpa [emitAll] using hk

/-- C8.  When the file read yields an error, the callback re-throws it
uncaught: the program's outcome is exactly that error, the operation is not
retried, and nothing at all is written to the sink (the outcome is not
`Except.ok` of any output, even a partial one). -/
theorem c8_read_failure {ε : Type} (err : ε)
    (parse : List Char → List Span × List Span) :
    mainOnRead (Except.error err) parse = Except.error err ∧
      ∀ out : List Char, mainOnRead (Except.error err) parse ≠ Except.ok out := by
  refine ⟨rfl, ?_⟩
  intro out h
  exact Except.noConfusion h

/-- C9.  The comparator never returns 0, and on every exact position tie
(equal start line and start column) it returns 1 for both argument orders, so
it is not antisymmetric and does not by itself determine the relative order of
position-tied spans. -/
theorem c9_comparator_ties (a b : Span) :
    comparator a b ≠ 0 ∧
      (a.startLine = b.startLine → a.startColumn = b.startColumn →
        comparator a b = 1 ∧ comparator b a = 1) := by
  constructor
  · unfold comparator
    dsimp only
    split_ifs <;> omega
  · intro h1 h2
    unfold comparator
    rw [h1, h2]
    simp [lt_irrefl]

/-- A token span position-tied with `tieComment`, for the C9 witness. -/
def tieTok : Span :=
  { type := "Identifier", value := "x", startLine := 3, startColumn := 5,
    rangeStart := 20, rangeEnd := 21 }

/-- A block-comment span position-tied with `tieTok`, for the C9 witness. -/
def tieComment : Span :=
  { type := "Block", value := " c ", startLine := 3, startColumn := 5,
    rangeStart := 20, rangeEnd := 27 }

/-- Witness for C9 at a concrete position tie. -/
theorem c9_comparator_ties_witness :
    comparator tieComment tieTok ≠ 0 ∧
      (comparator tieComment tieTok = 1 ∧ comparator tieTok tieComment = 1) :=
  ⟨(c9_comparator_ties tieComment tieTok).1,
    (c9_comparator_ties tieComment tieTok).2 rfl rfl⟩

/-- `t` occurs strictly before some occurrence of `c` in the list `l`. -/
def occursBeforeIn (t c : Span) (l : List Span) : Prop :=
  ∃ l1 l2, l = l1 ++ t :: l2 ∧ c ∈ l2

/-- On an exact position tie the comparator answers 1 ("greater"). -/
lemma comparator_tie {a b : Span} (h1 : a.startLine = b.startLine)
    (h2 : a.startColumn = b.startColumn) : comparator a b = 1 := by
  unfold comparator
  dsimp only
  rw [h1, h2]
  simp [lt_irrefl]

lemma mem_insertSorted {a x : Span} : ∀ {l : List Span},
    a ∈ insertSorted x l ↔ a = x ∨ a ∈ l := by
  intro l
  induction l with
  | nil => simp [insertSorted]
  | cons y ys ih =>
      by_cases h : comparator y x ≤ 0
      · simp only [insertSorted, if_pos h, List.mem_cons, ih]
        tauto
      · simp only [insertSorted, if_neg h, List.mem_cons]

lemma mem_foldl_insertSorted :
    ∀ (l acc : List Span) (a : Span), a ∈ acc ∨ a ∈ l →
    a ∈ l.foldl (fun acc token => insertSorted token acc) acc := by
  intro l
  induction l with
  | nil =>
      intro acc a h
      simpa using h.resolve_right (by simp)
  | cons x xs ih =>
      intro acc a h
      rw [List.foldl_cons]
      rcases h with h | h
      · exact ih _ a (Or.inl (mem_insertSorted.mpr (Or.inr h)))
      · rcases List.mem_cons.mp h with h | h
        · exact ih _ a (Or.inl (mem_insertSorted.mpr (Or.inl h)))
        · exact ih _ a (Or.inr h)

lemma occursBeforeIn_cons {t c y : Span} {l : List Span}
    (h : occursBeforeIn t c l) : occursBeforeIn t c (y :: l) := by
  obtain ⟨l1, l2, heq, hc⟩ := h
  exact ⟨y :: l1, l2, by rw [heq]; rfl, hc⟩

lemma occursBeforeIn_insertSorted {t c : Span} (x : Span) :
    ∀ {l : List Span}, occursBeforeIn t c l → occursBeforeIn t c (insertSorted x l) := by
  intro l
  induction l with
  | nil =>
      rintro ⟨l1, l2, heq, -⟩
      cases l1 <;> simp at heq
  | cons y ys ih =>
      rintro ⟨l1, l2, heq, hc⟩
      by_cases hcmp : comparator y x ≤ 0
      · cases l1 with
        | nil =>
            simp only [List.nil_append, List.cons.injEq] at heq
            obtain ⟨hyt, hys⟩ := heq
            subst hyt
            refine ⟨[], insertSorted x ys, ?_, ?_⟩
            · simp [insertSorted, hcmp]
            · exact mem_insertSorted.mpr (Or.inr (by rw [hys]; exact hc))
        | cons z l1' =>
            simp only [List.cons_append, List.cons.injEq] at heq
            obtain ⟨hyz, hys⟩ := heq
            subst hyz
            have hys' : occursBeforeIn t c ys := ⟨l1', l2, hys, hc⟩
            simpa [insertSorted, hcmp] using occursBeforeIn_cons (ih hys')
      · have h0 : occursBeforeIn t c (y :: ys) := ⟨l1, l2, heq, hc⟩
        simpa [insertSorted, hcmp] using occursBeforeIn_cons h0

lemma insertSorted_makes_before {t c : Span} (hpos : 0 < comparator c t) :
    ∀ {l : List Span}, c ∈ l → occursBeforeIn t c (insertSorted t l) := by
  intro l
  induction l with
  | nil => intro h; simp at h
  | cons y ys ih =>
      intro hc
      by_cases hcmp : comparator y t ≤ 0
      · rcases List.mem_cons.mp hc with hcy | hcys
        · subst hcy
          omega
        · simpa [insertSorted, hcmp] using occursBeforeIn_cons (ih hcys)
      · exact ⟨[], y :: ys, by simp [insertSorted, hcmp], hc⟩

lemma foldl_preserves_before {t c : Span} :
    ∀ (l acc : List Span), occursBeforeIn t c acc →
    occursBeforeIn t c (l.foldl (fun acc token => insertSorted token acc) acc) := by
  intro l
  induction l with
  | nil => intro acc h; simpa using h
  | cons x xs ih =>
      intro acc h
      rw [List.foldl_cons]
      exact ih _ (occursBeforeIn_insertSorted x h)

/-- C3.  For every comment list and token list and every position-tied pair
(`c` from the comments array, `t` from the tokens array, equal start line and
start column), the sorted merged list `allTokensOf comments tokens` places the
token span `t` strictly before the comment span `c`: the comparator answers
"greater" on ties, so the sort moves the later-listed token in front of the
earlier-listed comment. -/
theorem c3_tie_break (comments tokens : List Span) (c t : Span)
    (hc : c ∈ comments) (ht : t ∈ tokens)
    (hline : c.startLine = t.startLine) (hcol : c.startColumn = t.startColumn) :
    occursBeforeIn t c (allTokensOf comments tokens) := by
  have hpos : 0 < comparator c t := by
    rw [comparator_tie hline hcol]
    omega
  obtain ⟨t1, t2, hts⟩ := List.append_of_mem ht
  subst hts
  unfold allTokensOf jsSort
  rw [show comments ++ (t1 ++ t :: t2) = (comments ++ t1) ++ t :: t2 from
    (List.append_assoc comments t1 (t :: t2)).symm]
  rw [List.foldl_append, List.foldl_cons]
  apply foldl_preserves_before
  exact insertSorted_makes_before hpos
    (mem_foldl_insertSorted _ _ _ (Or.inr (List.mem_append_left t1 hc)))

/-- Witness for C3 at a concrete tied comment/token pair. -/
theorem c3_tie_break_witness :
    tieComment ∈ [tieComment] ∧ tieTok ∈ [tieTok] ∧
      tieComment.startLine = tieTok.startLine ∧
      tieComment.startColumn = tieTok.startColumn ∧
      occursBeforeIn tieTok tieComment (allTokensOf [tieComment] [tieTok]) :=
  ⟨List.mem_singleton.mpr rfl, List.mem_singleton.mpr rfl, rfl, rfl,
    c3_tie_break [tieComment] [tieTok] tieComment tieTok
      (List.mem_singleton.mpr rfl) (List.mem_singleton.mpr rfl) rfl rfl⟩

/-- The block comment `/* a */` of the source `"/* a */\n// b"`. -/
def lcBlock : Span :=
  { type := "Block", value := " a ", startLine := 1, startColumn := 0,
    rangeStart := 0, rangeEnd := 7 }

/-- The line comment `// b` of the source `"/* a */\n// b"`: its builder state
on arrival is `inComment = true`, `previousEnd = 7` (set by `lcBlock`). -/
def lcLine : Span :=
  { type := "Line", value := " b", startLine := 2, startColumn := 0,
    rangeStart := 8, rangeEnd := 12 }

/-- C5, counterexample.  The claim states that no opening or closing fence
transition is ever triggered by a line comment.  But a line comment is a
non-comment for the builder, so when it arrives with the state still in prose
(here: directly after a block comment, state `(true, some 7)`), it triggers
the code-opening fence transition itself. -/
theorem c5_line_comment_counterexample :
    lcLine.type = "Line" ∧
      Seg.openF ∈ (emitSpan "/* a */\n// b".data (true, some 7) lcLine).2 :=
  ⟨rfl, by decide⟩

/-- C5, amended.  A span is treated as prose exactly when its type is
`"Block"`; a line-comment span is treated like any token: it is emitted as a
verbatim source slice (its `//` delimiter included), it never triggers the
closing (prose-entering) fence transition, and it leaves the state in code —
but it does trigger the opening (code-entering) fence transition when the
state was still in prose. -/
theorem c5_line_comment_amended (s : List Char) (st : Bool × Option Nat) (t : Span)
    (h : t.type = "Line") :
    isComment t = false ∧
      (emitSpan s st t).2 =
        (if st.1 then [Seg.openF] else []) ++
          [Seg.code (jsSubstring s st.2 t.rangeEnd)] ∧
      (emitSpan s st t).1 = (false, some t.rangeEnd) ∧
      Seg.closeF ∉ (emitSpan s st t).2 := by
  have hic : isComment t = false := by simp [isComment, h]
  refine ⟨hic, ?_, ?_, ?_⟩
  · cases hst : st.1 <;> simp [emitSpan, hic, hst]
  · cases hst : st.1 <;> simp [emitSpan, stepState, hic, hst]
  · cases hst : st.1 <;> simp [emitSpan, hic, hst]

/-- Witness for the amended C5 at the line comment of `"/* a */\n// b"`. -/
theorem c5_line_comment_amended_witness :
    lcLine.type = "Line" ∧
      (isComment lcLine = false ∧
        (emitSpan "/* a */\n// b".data (true, some 7) lcLine).2 =
          [Seg.openF, Seg.code (jsSubstring "/* a */\n// b".data (some 7) lcLine.rangeEnd)] ∧
        (emitSpan "/* a */\n// b".data (true, some 7) lcLine).1 =
          (false, some lcLine.rangeEnd) ∧
        Seg.closeF ∉ (emitSpan "/* a */\n// b".data (true, some 7) lcLine).2) :=
  ⟨rfl, c5_line_comment_amended "/* a */\n// b".data (true, some 7) lcLine rfl⟩

/-- The single token of the one-character source `"x"`. -/
def xTok : Span :=
  { type := "Identifier", value := "x", startLine := 1, startColumn := 0,
    rangeStart := 0, rangeEnd := 1 }

/-- C6, counterexample.  The claim states `previousEnd` is never read while
unset.  On the code-only input `"x"` the very first span is a token, and its
iteration executes `sourceCode.substring(previousEnd, end)` with `previousEnd`
still `undefined`. -/
theorem c6_previous_end_counterexample :
    readsPreviousEndUnset none (allTokensOf [] [xTok]) = true := by decide

/-- C6, amended.  `previousEnd` is read while still unset exactly when the
first span of the merged list is a non-comment; from the second span onward it
is always set (every iteration assigns it), and a leading block comment's
branch does not read it.  (When the unset read does happen, `substring`
coerces `undefined` to 0, so the slice starts at the beginning of the
source.) -/
theorem c6_previous_end_amended (spans : List Span) :
    readsPreviousEndUnset none spans =
      (match spans with
       | [] => false
       | token :: _ => !isComment token) := by
  cases spans with
  | nil => rfl
  | cons t rest =>
      have haux : ∀ (l : List Span) (e : Nat), readsPreviousEndUnset (some e) l = false := by
        intro l
        induction l with
        | nil => intro e; rfl
        | cons u l' ih =>
            intro e
            simp [readsPreviousEndUnset, ih]
      simp [readsPreviousEndUnset, haux]

/-- The block comment of `"/* hello */\nvar x = 1;"`, as the external parser
produces it: its `value` is the delimiter-stripped body `" hello "`, spaces
included, and its range is `[0, 11)`. -/
def helloComment : Span :=
  { type := "Block", value := " hello ", startLine := 1, startColumn := 0,
    rangeStart := 0, rangeEnd := 11 }

/-- The five tokens of `"/* hello */\nvar x = 1;"`. -/
def helloTokens : List Span :=
  [ { type := "Keyword", value := "var", startLine := 2, startColumn := 0,
      rangeStart := 12, rangeEnd := 15 },
    { type := "Identifier", value := "x", startLine := 2, startColumn := 4,
      rangeStart := 16, rangeEnd := 17 },
    { type := "Punctuator", value := "=", startLine := 2, startColumn := 6,
      rangeStart := 18, rangeEnd := 19 },
    { type := "Numeric", value := "1", startLine := 2, startColumn := 8,
      rangeStart := 20, rangeEnd := 21 },
    { type := "Punctuator", value := ";", startLine := 2, startColumn := 9,
      rangeStart := 21, rangeEnd := 22 } ]

/-- C7, counterexample.  The claim states the output for
`"/* hello */\nvar x = 1;"` begins with `"hello"`.  It does not: the parser's
comment body keeps the spaces around the word, so the output begins with
`" hello "` (a space first). -/
theorem c7_leading_comment_counterexample :
    ¬ ((buildOutput "/* hello */\nvar x = 1;".data [helloComment] helloTokens).take 5 =
        "hello".data) := by
  decide

/-- C7, amended.  The output for `"/* hello */\nvar x = 1;"` is exactly the
comment body `" hello "` (no leading empty fence before it), followed by the
opening fence `"```js"`, the code slice `"\nvar x = 1;"`, the closing fence
`"\n```"`, and the trailing newline. -/
theorem c7_leading_comment_amended :
    buildOutput "/* hello */\nvar x = 1;".data [helloComment] helloTokens =
      " hello ".data ++ "```js".data ++ "\nvar x = 1;".data ++ "\n```".data ++ "\n".data := by
  decide

lemma step_str (s : List Char) (st : BuilderState) (t : Span) :
    (step s st t).str =
      st.str ++ (((emitSpan s (st.inComment, st.previousEnd) t).2).map render).flatten := by
  by_cases hc : isComment t <;> cases hic : st.inComment <;>
    simp [step, emitSpan, render, hc, hic, List.append_assoc]

lemma step_inComment (s : List Char) (st : BuilderState) (t : Span) :
    (step s st t).inComment = (stepState (st.inComment, st.previousEnd) t).1 := by
  by_cases hc : isComment t <;> cases hic : st.inComment <;>
    simp [step, stepState, hc, hic]

lemma step_previousEnd (s : List Char) (st : BuilderState) (t : Span) :
    (step s st t).previousEnd = some t.rangeEnd := by
  by_cases hc : isComment t <;> simp [step, hc]

lemma step_statePair (s : List Char) (st : BuilderState) (t : Span) :
    ((step s st t).inComment, (step s st t).previousEnd) =
      stepState (st.inComment, st.previousEnd) t := by
  have h2 : (stepState (st.inComment, st.previousEnd) t).2 = some t.rangeEnd := rfl
  refine Prod.ext ?_ ?_
  · rw [step_inComment]
  · rw [step_previousEnd, h2]

/-- The builder fold and the segment stream agree: the accumulated string is
the rendering of the emitted segments, and the `inComment` flag follows the
pure state transition. -/
lemma runBuilder_segs (s : List Char) :
    ∀ (spans : List Span) (st : BuilderState),
    (spans.foldl (step s) st).str =
        st.str ++ ((goSegs s (st.inComment, st.previousEnd) spans).map render).flatten ∧
      (spans.foldl (step s) st).inComment =
        (spans.foldl stepState (st.inComment, st.previousEnd)).1 := by
  intro spans
  induction spans with
  | nil => intro st; simp [goSegs]
  | cons t rest ih =>
      intro st
      rw [List.foldl_cons, List.foldl_cons]
      obtain ⟨ihs, ihc⟩ := ih (step s st t)
      constructor
      · rw [ihs, step_str, step_statePair]
        simp [goSegs, List.append_assoc]
      · rw [ihc, step_statePair]

/-- The program's output is the rendering of its segment stream followed by
the trailing newline. -/
lemma outputFromSpans_emitAll (s : List Char) (spans : List Span) :
    outputFromSpans s spans = ((emitAll s spans).map render).flatten ++ "\n".data := by
  obtain ⟨hs, hc⟩ :=
    runBuilder_segs s spans { str := [], inComment := true, previousEnd := none }
  unfold outputFromSpans runBuilder
  dsimp only at hs hc
  rw [List.nil_append] at hs
  cases hfc : (spans.foldl stepState (true, none)).1
  · simp only [hs, hc, hfc, emitAll, beq_self_eq_true, if_true, List.map_append,
      List.flatten_append]
    simp [render, List.append_assoc]
  · simp only [hs, hc, hfc, emitAll]
    simp [render]

lemma mem_foldl_insertSorted_rev :
    ∀ (l acc : List Span) (a : Span),
    a ∈ l.foldl (fun acc token => insertSorted token acc) acc → a ∈ acc ∨ a ∈ l := by
  intro l
  induction l with
  | nil => intro acc a h; exact Or.inl (by simpa using h)
  | cons x xs ih =>
      intro acc a h
      rw [List.foldl_cons] at h
      rcases ih _ a h with h1 | h1
      · rcases mem_insertSorted.mp h1 with h2 | h2
        · exact Or.inr (by simp [h2])
        · exact Or.inl h2
      · exact Or.inr (List.mem_cons_of_mem x h1)

/-- From a state already inside code, a run of non-comment spans emits no
fence and its rendered text telescopes to one verbatim source slice. -/
lemma render_goSegs_noncomment (s : List Char) :
    ∀ (spans : List Span) (p : Option Nat),
    (∀ t ∈ spans, isComment t = false) →
    List.Chain' (fun a b : Span => a.rangeEnd ≤ b.rangeEnd) spans →
    (∀ t1 ∈ spans.head?, p.getD 0 ≤ t1.rangeEnd) →
    ((goSegs s (false, p) spans).map render).flatten =
      jsSubstring s p (lastEndFrom (p.getD 0) spans) := by
  intro spans
  induction spans with
  | nil =>
      intro p _ _ _
      simp [goSegs, lastEndFrom, jsSubstring_getD_self]
  | cons t rest ih =>
      intro p hnc hchain hhead
      have hct : isComment t = false := hnc t (by simp)
      have hpt : p.getD 0 ≤ t.rangeEnd := hhead t (by simp)
      have hhead' : ∀ t1 ∈ rest.head?, t.rangeEnd ≤ t1.rangeEnd := by
        intro t1 ht1
        cases rest with
        | nil => simp at ht1
        | cons u rest' =>
            simp only [List.head?_cons, Option.mem_def, Option.some.injEq] at ht1
            subst ht1
            exact (List.chain'_cons.mp hchain).1
      have hstep : stepState (false, p) t = (false, some t.rangeEnd) := by
        simp [stepState, hct]
      have ihr := ih (some t.rangeEnd) (fun u hu => hnc u (List.mem_cons_of_mem t hu))
        hchain.tail (by simpa using hhead')
      simp only [goSegs, List.map_append, List.flatten_append, hstep]
      rw [ihr]
      have hcontent :
          (((emitSpan s (false, p) t).2).map render).flatten = jsSubstring s p t.rangeEnd := by
        simp [emitSpan, hct, render]
      rw [hcontent]
      simp only [Option.getD_some, lastEndFrom]
      exact jsSubstring_optionAppend s p t.rangeEnd (lastEndFrom t.rangeEnd rest) hpt
        (chain_le_lastEndFrom rest t hchain)

/-- From a state already inside code, non-comment spans keep the state inside
code. -/
lemma foldl_stepState_noncomment :
    ∀ (spans : List Span) (p : Option Nat),
    (∀ t ∈ spans, isComment t = false) →
    (spans.foldl stepState (false, p)).1 = false := by
  intro spans
  induction spans with
  | nil => intro p _; rfl
  | cons t rest ih =>
      intro p hnc
      rw [List.foldl_cons]
      have hct : isComment t = false := hnc t (by simp)
      have hstep : stepState (false, p) t = (false, some t.rangeEnd) := by
        simp [stepState, hct]
      rw [hstep]
      exact ih _ (fun u hu => hnc u (List.mem_cons_of_mem t hu))

/-- C4, counterexample.  The claim states the code-only output is
`"```js\n" + sourceText + "\n```\n"`.  On the one-token source `"x"` the
program writes `"```jsx\n```\n"`: no newline separates the opening fence tag
from the source text (the builder appends `"```js"` with no trailing
newline). -/
theorem c4_code_only_counterexample :
    ¬ (buildOutput "x".data [] [xTok] = "```js\n".data ++ "x".data ++ "\n```\n".data) := by
  decide

/-- C4, amended.  With no comments and a non-empty token list (none of type
`"Block"`) whose sorted range ends are nondecreasing, the output is exactly
`"```js"` (no newline after the tag), then the source text truncated at the
last token's range end, then `"\n```"` and the trailing newline: one opening
fence, one closing fence, no prose. -/
theorem c4_code_only_amended (source : List Char) (tokens : List Span)
    (hne : allTokensOf [] tokens ≠ [])
    (hnb : ∀ t ∈ tokens, t.type ≠ "Block")
    (hchain : List.Chain' (fun a b : Span => a.rangeEnd ≤ b.rangeEnd)
      (allTokensOf [] tokens)) :
    buildOutput source [] tokens =
      "```js".data ++ source.take (lastEndFrom 0 (allTokensOf [] tokens)) ++
        "\n```".data ++ "\n".data := by
  have hnc : ∀ t ∈ allTokensOf [] tokens, isComment t = false := by
    intro t ht
    unfold allTokensOf jsSort at ht
    rcases mem_foldl_insertSorted_rev _ _ t ht with h1 | h1
    · simp at h1
    · rw [List.nil_append] at h1
      rw [isComment]
      exact beq_eq_false_iff_ne.mpr (hnb t h1)
  obtain ⟨t0, rest, hsp⟩ : ∃ t0 rest, allTokensOf [] tokens = t0 :: rest := by
    cases hq : allTokensOf [] tokens with
    | nil => exact absurd hq hne
    | cons a b => exact ⟨a, b, rfl⟩
  unfold buildOutput
  rw [outputFromSpans_emitAll, hsp]
  have hnc' : ∀ t ∈ t0 :: rest, isComment t = false := by
    intro t ht
    exact hnc t (by rw [hsp]; exact ht)
  have hchain' : List.Chain' (fun a b : Span => a.rangeEnd ≤ b.rangeEnd) (t0 :: rest) :=
    hsp ▸ hchain
  have hct0 : isComment t0 = false := hnc' t0 (by simp)
  have hstep0 : stepState (true, none) t0 = (false, some t0.rangeEnd) := by
    simp [stepState, hct0]
  have hfc : ((t0 :: rest).foldl stepState (true, none)).1 = false := by
    rw [List.foldl_cons, hstep0]
    exact foldl_stepState_noncomment rest _
      (fun u hu => hnc' u (List.mem_cons_of_mem t0 hu))
  have hseg0 : (emitSpan source (true, none) t0).2 =
      [Seg.openF, Seg.code (jsSubstring source none t0.rangeEnd)] := by
    simp [emitSpan, hct0]
  have hheadrest : ∀ t1 ∈ rest.head?, t0.rangeEnd ≤ t1.rangeEnd := by
    intro t1 ht1
    cases rest with
    | nil => simp at ht1
    | cons u rest' =>
        simp only [List.head?_cons, Option.mem_def, Option.some.injEq] at ht1
        subst ht1
        exact (List.chain'_cons.mp hchain').1
  have hrest := render_goSegs_noncomment source rest (some t0.rangeEnd)
    (fun u hu => hnc' u (List.mem_cons_of_mem t0 hu)) hchain'.tail
    (by simpa using hheadrest)
  unfold emitAll
  rw [hfc]
  simp only [goSegs, hstep0, hseg0, List.map_append, List.flatten_append]
  rw [hrest]
  have htele : jsSubstring source none t0.rangeEnd ++
      jsSubstring source (some t0.rangeEnd)
        (lastEndFrom ((some t0.rangeEnd : Option Nat).getD 0) rest) =
      jsSubstring source none (lastEndFrom t0.rangeEnd rest) := by
    simp only [Option.getD_some]
    exact jsSubstring_optionAppend source none t0.rangeEnd (lastEndFrom t0.rangeEnd rest)
      (by simp) (chain_le_lastEndFrom rest t0 hchain')
  have hlast : lastEndFrom 0 (t0 :: rest) = lastEndFrom t0.rangeEnd rest := rfl
  have htake : List.take (lastEndFrom t0.rangeEnd rest) source =
      jsSubstring source none (lastEndFrom t0.rangeEnd rest) := by
    rw [jsSubstring_none, jsSubstring_zero]
  rw [hlast, htake, ← htele]
  simp [render, List.append_assoc]

/-- Witness for the amended C4 on source `"x\n"` with the single token `x`:
the trailing newline after the last token is truncated away. -/
theorem c4_code_only_amended_witness :
    (allTokensOf [] [xTok] ≠ [] ∧ ∀ t ∈ [xTok], t.type ≠ "Block") ∧
      buildOutput "x\n".data [] [xTok] =
        "```js".data ++ "x\n".data.take (lastEndFrom 0 (allTokensOf [] [xTok])) ++
          "\n```".data ++ "\n".data := by
  have hs : allTokensOf [] [xTok] = [xTok] := by decide
  have hchain : List.Chain' (fun a b : Span => a.rangeEnd ≤ b.rangeEnd)
      (allTokensOf [] [xTok]) := by
    rw [hs]
    simp
  exact ⟨⟨by decide, by decide⟩,
    c4_code_only_amended "x\n".data [xTok] (by decide) (by decide) hchain⟩

lemma step_take (s : List Char) (L : Nat) (st : BuilderState) (t : Span)
    (h1 : st.previousEnd.getD 0 ≤ L) (h2 : t.rangeEnd ≤ L) :
    step (s.take L) st t = step s st t := by
  have hsub := jsSubstring_take s L st.previousEnd t.rangeEnd h1 h2
  by_cases hc : isComment t <;> cases hic : st.inComment <;>
    simp [step, hc, hic, hsub]

lemma runBuilder_take (s : List Char) (L : Nat) :
    ∀ (spans : List Span) (st : BuilderState),
    (∀ t ∈ spans, t.rangeEnd ≤ L) → st.previousEnd.getD 0 ≤ L →
    spans.foldl (step (s.take L)) st = spans.foldl (step s) st := by
  intro spans
  induction spans with
  | nil => intro st _ _; rfl
  | cons t rest ih =>
      intro st hall hp
      rw [List.foldl_cons, List.foldl_cons, step_take s L st t hp (hall t (by simp))]
      refine ih (step s st t) (fun u hu => hall u (List.mem_cons_of_mem t hu)) ?_
      rw [step_previousEnd]
      simpa using hall t (by simp)

lemma runBuilder_previousEnd_last (s : List Char) :
    ∀ (spans : List Span) (st : BuilderState), spans ≠ [] →
    (spans.foldl (step s) st).previousEnd = some (lastEndFrom 0 spans) := by
  intro spans
  induction spans with
  | nil => intro st h; exact absurd rfl h
  | cons t rest ih =>
      intro st _
      rw [List.foldl_cons]
      cases rest with
      | nil => simp [step_previousEnd, lastEndFrom]
      | cons u rest' =>
          have h1 := ih (step s st t) (by simp)
          rw [h1]
          rfl

/-- C10.  For every input with at least one span (each span's range end
bounded by the last span's range end, as position-sorted parser output is),
the program's output depends only on the source text up to the last span's
range end — truncating the source there changes nothing, so characters of the
source strictly after that offset never appear in the output, which past that
point holds only the closing fence (when the run ends in code) and the single
newline appended at write time — and the final `previousEnd` is exactly the
last span's range end. -/
theorem c10_truncation (s : List Char) (spans : List Span)
    (hne : spans ≠ [])
    (hb : ∀ t ∈ spans, t.rangeEnd ≤ lastEndFrom 0 spans) :
    outputFromSpans s spans = outputFromSpans (s.take (lastEndFrom 0 spans)) spans ∧
      (runBuilder s spans).previousEnd = some (lastEndFrom 0 spans) := by
  constructor
  · unfold outputFromSpans runBuilder
    rw [runBuilder_take s (lastEndFrom 0 spans) spans
      { str := [], inComment := true, previousEnd := none } hb (by simp)]
  · exact runBuilder_previousEnd_last s spans
      { str := [], inComment := true, previousEnd := none } hne

/-- The semicolon token of the source `"x;\n"`, for the C10 witness. -/
def semiTok : Span :=
  { type := "Punctuator", value := ";", startLine := 1, startColumn := 1,
    rangeStart := 1, rangeEnd := 2 }

/-- Witness for C10 on source `"x;\n"` whose trailing newline lies after the
last token's range end. -/
theorem c10_truncation_witness :
    (([xTok, semiTok] : List Span) ≠ [] ∧
        ∀ t ∈ ([xTok, semiTok] : List Span), t.rangeEnd ≤ lastEndFrom 0 [xTok, semiTok]) ∧
      (outputFromSpans "x;\n".data [xTok, semiTok] =
          outputFromSpans ("x;\n".data.take (lastEndFrom 0 [xTok, semiTok])) [xTok, semiTok] ∧
        (runBuilder "x;\n".data [xTok, semiTok]).previousEnd =
          some (lastEndFrom 0 [xTok, semiTok])) :=
  ⟨⟨by decide, by decide⟩, c10_truncation "x;\n".data [xTok, semiTok] (by decide) (by decide)⟩
